import Mathlib

/-!
Verification development for the conditional-visibility and
option-specific-question reconciliation engine of
`js/questionRenderers copy.js` (survey results app).

The embedding models:
* the data shapes (`Question`, `Step`, condition rules, rendered view nodes);
* `processTemplate` (token substitution over character lists);
* `renderQuestion` (type dispatch; `null` for unknown types, modelled as
  `Option`);
* `refreshConditionalQuestions` (the reconciler: per condition-bearing
  question, compare desired visibility with rendered presence, insert before
  the nearest later rendered question or append, or remove immediately);
* `handleOptionSpecificQuestions` / the option-toggle listener (insert after
  the trigger or after the last option-specific sibling; on uncheck, schedule
  physical removal after a 300 time-unit delay via a pending-removal queue);
* `debounce` (trailing-edge timer semantics over event timestamps) and the
  continuous/discrete control classification of
  `setupConditionalQuestionListeners`;
* a state-passing variant of the reconciler that threads the response store,
  used to check the read-only (frame) property.

The view tree is modelled as the list of question nodes of the step's
container, in document order.  Node content (labels, inputs, styling) is out
of scope; a node carries the dataset attributes the engine itself queries:
`data-question-id`, `data-for-option-id`, `data-linked-question-id`.
-/

namespace SurveyApp

/-- A condition rule `{questionId, operator, value}` (ConditionSet entries). -/
structure Rule where
  questionId : Option String
  operator : String
  value : String
deriving DecidableEq, Repr

/-- A question's ConditionSet: `{rules: [...]}`. -/
structure ConditionSet where
  rules : List Rule
deriving DecidableEq, Repr

/-- A survey question.  Only the fields read by the reconciliation engine are
modelled. -/
structure Question where
  id : String
  qtype : String
  conditions : Option ConditionSet := none
  forOptionId : Option String := none
  linkedQuestionId : Option String := none
deriving DecidableEq, Repr

/-- A step: an ordered list of questions. -/
structure Step where
  id : String
  questions : List Question
deriving DecidableEq, Repr

/-- A rendered view node, identified by the dataset attributes the engine
queries: `data-question-id`, `data-for-option-id`, `data-linked-question-id`.
The container's child list is `List ViewNode` in document order. -/
structure ViewNode where
  questionId : String
  forOptionId : Option String := none
  linkedQuestionId : Option String := none
deriving DecidableEq, Repr

/-- The response store: question id to stored answer value (the part the
condition evaluator compares). -/
abbrev Store := List (String × String)

/-- Read of `surveyData.getResponse(questionId)`, returning the stored value. -/
def lookupResponse : Store → String → Option String
  | [], _ => none
  | (k, v) :: rest, qid => if k = qid then some v else lookupResponse rest qid

/-! ### Template substitution (`processTemplate`) -/

/-- Template context: the `data` object of `processTemplate`, a key/value map
over character lists. -/
abbrev TemplateCtx := List (List Char × List Char)

/-- Lookup of `data[trimmedKey]` in the template context. -/
def ctxLookup : TemplateCtx → List Char → Option (List Char)
  | [], _ => none
  | (k, v) :: rest, key => if k = key then some v else ctxLookup rest key

/-- Whitespace as removed by `String.prototype.trim` (the common ASCII part). -/
def jsWhitespaceChar (c : Char) : Bool :=
  decide (c = ' ') || decide (c = '\t') || decide (c = '\n') || decide (c = '\r')

/-- Trim of `key.trim()`: strip leading and trailing whitespace. -/
def jsTrim (l : List Char) : List Char :=
  ((l.dropWhile jsWhitespaceChar).reverse.dropWhile jsWhitespaceChar).reverse

/-- The full matched token text, used when the key is absent from the context
(the regex replacement returns `match` verbatim). -/
def tokenFallback (inner : List Char) : List Char :=
  '{' :: '{' :: (inner ++ ['}', '}'])

/-- Replacement for one matched token: `data[trimmedKey] !== undefined ?
data[trimmedKey] : match`. -/
def tokenResult (data : TemplateCtx) (inner : List Char) : List Char :=
  match ctxLookup data (jsTrim inner) with
  | some v => v
  | none => tokenFallback inner

/-- Left-to-right scan implementing
`text.replace(/\x7b\x7b([^\x7d]+)\x7d\x7d/g, ...)`: at `{{` the (greedy,
nonempty) run of non-`}` characters followed by `}}` is a match and is
replaced; on no match the scanner advances one character. -/
def processTemplateAux (data : TemplateCtx) : List Char → List Char
  | [] => []
  | c :: cs =>
    if c = '{' ∧ cs.head? = some '{' then
      if (cs.tail.takeWhile (fun x => decide (x ≠ '}'))) ≠ [] ∧
          (cs.tail.dropWhile (fun x => decide (x ≠ '}'))).head? = some '}' ∧
          ((cs.tail.dropWhile (fun x => decide (x ≠ '}'))).tail).head? = some '}' then
        tokenResult data (cs.tail.takeWhile (fun x => decide (x ≠ '}'))) ++
          processTemplateAux data (((cs.tail.dropWhile (fun x => decide (x ≠ '}'))).tail).tail)
      else c :: processTemplateAux data cs
    else c :: processTemplateAux data cs
termination_by l => l.length
decreasing_by
  · have h1 : List.Sublist (cs.tail.dropWhile (fun x => decide (x ≠ '}'))) cs.tail :=
      List.dropWhile_sublist _
    have h2 := h1.length_le
    have h3 := List.length_tail cs
    have h4 := List.length_tail (cs.tail.dropWhile (fun x => decide (x ≠ '}')))
    have h5 := List.length_tail ((cs.tail.dropWhile (fun x => decide (x ≠ '}'))).tail)
    simp only [List.length_cons]
    omega
  · simp only [List.length_cons]; omega
  · simp only [List.length_cons]; omega

/-- Top-level `processTemplate(text, data)`: guards (`!text`, `!data`) return the text
unchanged; otherwise the scan above runs. -/
def processTemplate (text : List Char) (data : Option TemplateCtx) : List Char :=
  match data with
  | none => text
  | some d => if text = [] then text else processTemplateAux d text

/-- Specification-side decomposition of a template text into literal runs and
`{{name}}` tokens. -/
inductive TemplateSeg where
  | lit : List Char → TemplateSeg
  | tok : List Char → TemplateSeg
deriving DecidableEq, Repr

/-- Reassemble a segment list into the literal text. -/
def flattenSegs : List TemplateSeg → List Char
  | [] => []
  | TemplateSeg.lit s :: rest => s ++ flattenSegs rest
  | TemplateSeg.tok n :: rest => '{' :: '{' :: (n ++ '}' :: '}' :: flattenSegs rest)

/-- Specification-side substitution: literals pass through unchanged, each
token is replaced by its context value, or passes through verbatim when its
trimmed name is not a context key. -/
def substituteSegs (data : TemplateCtx) : List TemplateSeg → List Char
  | [] => []
  | TemplateSeg.lit s :: rest => s ++ substituteSegs data rest
  | TemplateSeg.tok n :: rest => tokenResult data n ++ substituteSegs data rest

/-- Well-formedness of one segment: a literal contains no `{` (so the text it
contributes starts no token), a token name is nonempty and contains no `}`. -/
def segWF : TemplateSeg → Bool
  | TemplateSeg.lit l => decide ('{' ∉ l)
  | TemplateSeg.tok n => decide (n ≠ []) && decide ('}' ∉ n)

/-! ### `renderQuestion` (per-type dispatch) -/

/-- The ten question types of the `switch` in `renderQuestion`
(`QUESTION_TYPES`). -/
def knownQuestionTypes : List String :=
  ["shortText", "longText", "radio", "checkbox", "likert",
   "rangeSlider", "matrix2d", "rankOptions", "tags", "multiValueSlider"]

/-- Node produced for a question whose type is known: the container carries
`id = question-<id>` and `data-question-id = <id>`; unknown types hit the
`default` branch and return `null`. -/
def renderQuestionNode (q : Question) : Option ViewNode :=
  if q.qtype ∈ knownQuestionTypes then some { questionId := q.id }
  else none

/-- Dispatch of `renderQuestion(question, templateData)`: `null` for a missing question,
per-type dispatch otherwise.  The template data only affects node content,
which is not modelled. -/
def renderQuestion (q : Option Question) (templateData : Option (List (String × String))) :
    Option ViewNode :=
  match q with
  | none => none
  | some qq => renderQuestionNode qq

/-! ### Condition evaluation -/

/-- Modelled from the spec: the repository's `conditionEvaluator.js`
(`shouldShowQuestion`'s rule evaluation) is not under `src/`; per spec 4.3 a
rule with a missing `questionId` or an unrecognized operator evaluates
fail-closed to `false`, and an `equals` rule compares the stored response
value with the rule value. -/
def evalRule (store : Store) (r : Rule) : Bool :=
  match r.questionId with
  | none => false
  | some qid =>
    if r.operator = "equals" then decide (lookupResponse store qid = some r.value)
    else false

/-- Modelled from the spec: the repository's `conditionEvaluator.js`
(`shouldShowQuestion`) is not under `src/`; a question without conditions is
shown, otherwise all rules of its ConditionSet must hold. -/
def shouldShowQuestion (store : Store) (q : Question) : Bool :=
  match q.conditions with
  | none => true
  | some cs => cs.rules.all (evalRule store)

/-! ### The reconciler (`refreshConditionalQuestions`) -/

/-- Presence check `document.getElementById('question-' + qid) != null`, over the step
container. -/
def presentOf (tree : List ViewNode) (qid : String) : Bool :=
  tree.any fun n => decide (n.questionId = qid)

/-- Removal `questionElement.remove()` of the (first) node with the given id. -/
def removeById (tree : List ViewNode) (qid : String) : List ViewNode :=
  tree.eraseP fun n => decide (n.questionId = qid)

/-- Insertion `container.insertBefore(newNode, anchor)`: insert immediately before the
first node with the anchor's id; if no node matches, this appends at the end
(the reconciler only calls it with a live anchor). -/
def insertBeforeNode (newNode : ViewNode) (anchorId : String) : List ViewNode → List ViewNode
  | [] => [newNode]
  | n :: rest =>
    if n.questionId = anchorId then newNode :: n :: rest
    else n :: insertBeforeNode newNode anchorId rest

/-- The anchor loop of `refreshConditionalQuestions`: scan the questions after
the inserted one and return the first that already has a live node. -/
def findAnchorQ (tree : List ViewNode) : List Question → Option Question
  | [] => none
  | q2 :: rest => if presentOf tree q2.id then some q2 else findAnchorQ tree rest

/-- Index search `step.questions.findIndex(q => q.id === question.id)` followed by the loop
from `questionIndex + 1`: the list of questions after this question's index. -/
def anchorSearchList (questions : List Question) (q : Question) : List Question :=
  questions.drop (questions.findIdx (fun q2 => decide (q2.id = q.id)) + 1)

/-- One iteration of the `step.questions.forEach` body of
`refreshConditionalQuestions`: skip questions without conditions; otherwise
compare desired visibility with rendered presence and insert (before the
nearest later live question, else append) or remove. -/
def refreshStep1 (render : Question → Option ViewNode) (evalC : Question → Bool)
    (questions : List Question) (tree : List ViewNode) (q : Question) : List ViewNode :=
  match q.conditions with
  | none => tree
  | some _ =>
    if evalC q && !(presentOf tree q.id) then
      match render q with
      | none => tree
      | some newNode =>
        match findAnchorQ tree (anchorSearchList questions q) with
        | some anchorQ => insertBeforeNode newNode anchorQ.id tree
        | none => tree ++ [newNode]
    else if !(evalC q) && presentOf tree q.id then removeById tree q.id
    else tree

/-- Reconciler `refreshConditionalQuestions(step, container)`: fold the per-question body
over `step.questions`.  The question factory (`renderQuestion`) and the
condition oracle (`shouldShowQuestion`) are passed as capabilities. -/
def refreshConditionalQuestions (render : Question → Option ViewNode) (evalC : Question → Bool)
    (step : Step) (tree : List ViewNode) : List ViewNode :=
  step.questions.foldl (refreshStep1 render evalC step.questions) tree

/-- Specification-side view of `anchorSearchList` at the level of ids: the ids
after the first occurrence of `x`. -/
def laterIds (x : String) : List String → List String
  | [] => []
  | i :: rest => if i = x then rest else laterIds x rest

/-- Specification-side view of `findAnchorQ` at the level of ids: the first
candidate id that occurs among the tree's ids. -/
def findAnchorS (treeIds : List String) : List String → Option String
  | [] => none
  | c :: rest => if c ∈ treeIds then some c else findAnchorS treeIds rest

/-- Specification-side view of `insertBeforeNode` at the level of ids. -/
def insertBeforeS (x a : String) : List String → List String
  | [] => [x]
  | y :: rest => if y = a then x :: y :: rest else y :: insertBeforeS x a rest

/-! ### Option-specific questions (`handleOptionSpecificQuestions`) -/

/-- Detail of the `checkbox-option-change` custom event. -/
structure OptionToggleDetail where
  questionId : String
  optionId : String
  optionLabel : String
  checked : Bool
deriving DecidableEq, Repr

/-- View tree plus the pending deferred removals (`setTimeout(() =>
element.remove(), 300)` closures, as node and due time). -/
structure OptState where
  tree : List ViewNode
  pending : List (ViewNode × Nat)
deriving DecidableEq, Repr

/-- The existence query
`.survey-question[data-question-id="..."][data-for-option-id="..."]`. -/
def optionNodeSelector (qid optionId : String) (n : ViewNode) : Bool :=
  decide (n.questionId = qid) && decide (n.forOptionId = some optionId)

/-- Insert immediately after the (first occurrence of the) target node:
`insertBefore(new, target.nextSibling)`, appending when the target is last. -/
def insertAfterNode (target newNode : ViewNode) : List ViewNode → List ViewNode
  | [] => [newNode]
  | n :: rest =>
    if n = target then n :: newNode :: rest
    else n :: insertAfterNode target newNode rest

/-- The cosmetic exit delay: `setTimeout(() => existingElement.remove(), 300)`. -/
def removalDelay : Nat := 300

/-- The freshly rendered node after the handler tags it:
`questionElement.dataset.forOptionId = optionId;
questionElement.dataset.linkedQuestionId = questionId`. -/
def mkOptionNode (rendered : ViewNode) (detail : OptionToggleDetail) : ViewNode :=
  { rendered with forOptionId := some detail.optionId,
                  linkedQuestionId := some detail.questionId }

/-- One iteration of the `optionQuestions.forEach` body of
`handleOptionSpecificQuestions`.  On check with no existing element, render
(with template context) and insert after the last option-specific sibling for
the trigger, else directly after the trigger's node, else append.  On uncheck
with an existing element, schedule a deferred removal; the node stays in the
tree until the delay elapses. -/
def handleOneOptionQuestion (render : Question → Option ViewNode)
    (detail : OptionToggleDetail) (now : Nat) (st : OptState) (q : Question) : OptState :=
  match st.tree.find? (optionNodeSelector q.id detail.optionId) with
  | some existingElement =>
    if detail.checked then st
    else { st with pending := st.pending ++ [(existingElement, now + removalDelay)] }
  | none =>
    if detail.checked then
      match render q with
      | none => st
      | some rendered =>
        match st.tree.find? (fun n => decide (n.questionId = detail.questionId)) with
        | none => { st with tree := st.tree ++ [mkOptionNode rendered detail] }
        | some checkboxQuestionElement =>
          match (st.tree.filter
              (fun n => decide (n.linkedQuestionId = some detail.questionId))).getLast? with
          | some lastOptionQuestion =>
            { st with tree :=
                (insertAfterNode lastOptionQuestion (mkOptionNode rendered detail) st.tree) }
          | none =>
            { st with tree :=
                (insertAfterNode checkboxQuestionElement (mkOptionNode rendered detail) st.tree) }
    else st

/-- Handler `handleOptionSpecificQuestions(optionQuestions, optionDetails, ...)`. -/
def handleOptionSpecificQuestions (render : Question → Option ViewNode)
    (optionQuestions : List Question) (detail : OptionToggleDetail) (now : Nat)
    (st : OptState) : OptState :=
  optionQuestions.foldl (handleOneOptionQuestion render detail now) st

/-- The option-specific questions of the step that match a toggle: the
`optionSpecificQuestions.filter` of the `checkbox-option-change` listener. -/
def relatedOptionQuestionsFor (questions : List Question) (detail : OptionToggleDetail) :
    List Question :=
  (questions.filter (fun q => q.forOptionId.isSome && q.linkedQuestionId.isSome)).filter
    (fun q => decide (q.linkedQuestionId = some detail.questionId) &&
      decide (q.forOptionId = some detail.optionId))

/-- The `checkbox-option-change` listener of
`setupConditionalQuestionListeners`: filter the step's option-specific
questions to those matching the toggled option and hand them to
`handleOptionSpecificQuestions`. -/
def handleOptionToggle (render : Question → Option ViewNode) (questions : List Question)
    (detail : OptionToggleDetail) (now : Nat) (st : OptState) : OptState :=
  if (relatedOptionQuestionsFor questions detail).isEmpty then st
  else handleOptionSpecificQuestions render (relatedOptionQuestionsFor questions detail)
    detail now st

/-- Advance the clock to time `t`: every pending removal that is due fires
(`element.remove()`), the rest stay queued. -/
def elapse (t : Nat) (st : OptState) : OptState :=
  { tree := (st.pending.filter (fun pr => decide (pr.2 ≤ t))).foldl
      (fun tr pr => tr.eraseP (fun n => decide (n = pr.1))) st.tree,
    pending := st.pending.filter (fun pr => !(decide (pr.2 ≤ t))) }

/-! ### Event classification and debounce -/

/-- The input types treated as continuous in
`setupConditionalQuestionListeners` (`['text','number','email','tel','url']`). -/
def continuousInputTypes : List String := ["text", "number", "email", "tel", "url"]

/-- The rendered control kinds the listener setup distinguishes. -/
inductive ControlKind where
  | inputEl : String → ControlKind
  | textareaEl : ControlKind
  | otherEl : ControlKind
deriving DecidableEq, Repr

/-- Which DOM event the listener uses: `input` for continuous text-style
controls and textareas, `change` for everything else. -/
def eventNameFor : ControlKind → String
  | ControlKind.inputEl t => if t ∈ continuousInputTypes then "input" else "change"
  | ControlKind.textareaEl => "input"
  | ControlKind.otherEl => "change"

/-- Listener policy: continuous (`input`-event) controls are wrapped in
`debounce(handler, 300)`, discrete controls call the handler directly. -/
inductive ListenerPolicy where
  | debounced : Nat → ListenerPolicy
  | immediate : ListenerPolicy
deriving DecidableEq, Repr

/-- The debounce wait used by `setupConditionalQuestionListeners`. -/
def debounceWait : Nat := 300

/-- The handler chosen for a control kind. -/
def listenerFor (k : ControlKind) : ListenerPolicy :=
  if eventNameFor k = "input" then ListenerPolicy.debounced debounceWait
  else ListenerPolicy.immediate

/-- Trailing-edge semantics of `debounce(func, wait)` over a strictly ordered
list of event times: each event clears the pending timer and arms a new one at
`event + wait`; a timer fires only when no later event arrives before it
expires.  The result is the list of firing times. -/
def debounceFires (wait : Nat) : List Nat → List Nat
  | [] => []
  | [t] => [t + wait]
  | t1 :: t2 :: rest =>
    if t1 + wait < t2 then (t1 + wait) :: debounceFires wait (t2 :: rest)
    else debounceFires wait (t2 :: rest)

/-- All gaps between consecutive events are within the wait window. -/
def gapsWithin (wait : Nat) : Nat → List Nat → Bool
  | _, [] => true
  | t, t2 :: rest => decide (t2 ≤ t + wait) && gapsWithin wait t2 rest

/-! ### Store-threading reconciler (frame property) -/

/-- A store computation: the remaining state-passing view of code that may
read or write the response store. -/
abbrev StoreComp (α : Type) := Store → Store × α

/-- Read `surveyData.getResponse` as a store computation. -/
def getResponseOp (qid : String) : StoreComp (Option String) :=
  fun s => (s, lookupResponse s qid)

/-- Write `surveyData.saveResponse` as a store computation.  It is called
from input event handlers (blur/change), never from the reconciliation pass. -/
def saveResponseOp (qid value : String) : StoreComp Unit :=
  fun s => ((qid, value) :: s, ())

/-- The per-question reconciliation body with the store threaded through the
condition oracle and the question factory. -/
def refreshStep1M (renderM : Question → StoreComp (Option ViewNode))
    (evalM : Question → StoreComp Bool) (questions : List Question)
    (acc : Store × List ViewNode) (q : Question) : Store × List ViewNode :=
  match q.conditions with
  | none => acc
  | some _ =>
    match evalM q acc.1 with
    | (s1, shouldShow) =>
      if shouldShow && !(presentOf acc.2 q.id) then
        match renderM q s1 with
        | (s2, none) => (s2, acc.2)
        | (s2, some newNode) =>
          (s2, match findAnchorQ acc.2 (anchorSearchList questions q) with
            | some anchorQ => insertBeforeNode newNode anchorQ.id acc.2
            | none => acc.2 ++ [newNode])
      else if !shouldShow && presentOf acc.2 q.id then (s1, removeById acc.2 q.id)
      else (s1, acc.2)

/-- Reconciler `refreshConditionalQuestions` with the store threaded. -/
def refreshConditionalQuestionsM (renderM : Question → StoreComp (Option ViewNode))
    (evalM : Question → StoreComp Bool) (step : Step) (store : Store)
    (tree : List ViewNode) : Store × List ViewNode :=
  step.questions.foldl (refreshStep1M renderM evalM step.questions) (store, tree)

/-! ### Concrete instances used to exercise the theorems -/

/-- The question factory exactly as the reconciler invokes it:
`renderQuestion(question)`. -/
def renderVia : Question → Option ViewNode := fun q => renderQuestion (some q) none

/-- Scenario A trigger: `Q1`, a checkbox. -/
def c1Checkbox : Question := { id := "Q1", qtype := "checkbox" }

/-- Scenario A dependent: `Q2` with `forOptionId="a"`, `linkedQuestionId="Q1"`. -/
def c1OptionQuestion : Question :=
  { id := "Q2", qtype := "shortText", forOptionId := some "a", linkedQuestionId := some "Q1" }

/-- Rendered node of `Q1`. -/
def c1TriggerNode : ViewNode := { questionId := "Q1" }

/-- Rendered option-specific node of `Q2` for option `a`. -/
def c1OptionNode : ViewNode :=
  { questionId := "Q2", forOptionId := some "a", linkedQuestionId := some "Q1" }

/-- State with both nodes live and no pending removal. -/
def c1Initial : OptState := { tree := [c1TriggerNode, c1OptionNode], pending := [] }

/-- The uncheck toggle for option `a` of `Q1`. -/
def c1Uncheck : OptionToggleDetail :=
  { questionId := "Q1", optionId := "a", optionLabel := "A", checked := false }

/-- The rapid re-check of the same option. -/
def c1Recheck : OptionToggleDetail := { c1Uncheck with checked := true }

/-- The state immediately after unchecking option `a` at time 0. -/
def c1AfterUncheck : OptState :=
  handleOptionToggle renderVia [c1Checkbox, c1OptionQuestion] c1Uncheck 0 c1Initial

/-- A small step with two condition-bearing questions around an
unconditional one. -/
def wStep : Step :=
  { id := "step1", questions :=
    [ { id := "Q1", qtype := "shortText", conditions := some { rules := [] } },
      { id := "Q2", qtype := "radio" },
      { id := "Q3", qtype := "checkbox", conditions := some { rules := [] } } ] }

/-- A tree holding only the unconditional question's node. -/
def wTree : List ViewNode := [{ questionId := "Q2" }]

/-- Scenario D trigger question. -/
def w4Trigger : Question := { id := "QT", qtype := "checkbox" }

/-- Scenario D first option-specific question. -/
def w4Q4 : Question :=
  { id := "Q4", qtype := "shortText", forOptionId := some "a", linkedQuestionId := some "QT" }

/-- Scenario D second option-specific question. -/
def w4Q5 : Question :=
  { id := "Q5", qtype := "longText", forOptionId := some "a", linkedQuestionId := some "QT" }

/-- Checking option `a` of `QT`. -/
def w4Detail : OptionToggleDetail :=
  { questionId := "QT", optionId := "a", optionLabel := "L", checked := true }

/-- Rendered node of the Scenario D trigger. -/
def w4TriggerNode : ViewNode := { questionId := "QT" }

/-- A question whose single rule has an unrecognized operator. -/
def w5Question : Question :=
  { id := "QB", qtype := "shortText",
    conditions := some { rules := [{ questionId := some "Q1", operator := "weird", value := "x" }] } }

/-- A step holding only the malformed-rule question. -/
def w5Step : Step := { id := "s5", questions := [w5Question] }

/-- A condition-bearing question whose type the factory cannot materialize. -/
def w6Broken : Question := { id := "QX", qtype := "mystery", conditions := some { rules := [] } }

/-- A step pairing the broken question with a renderable one. -/
def w6Step : Step :=
  { id := "s6", questions :=
    [ w6Broken, { id := "QY", qtype := "radio", conditions := some { rules := [] } } ] }

/-- Template-substitution example segments. -/
def c8Segs : List TemplateSeg :=
  [ TemplateSeg.lit ['H', 'i', ' '], TemplateSeg.tok ['o', 'p', 't'],
    TemplateSeg.lit ['!'], TemplateSeg.tok ['m', 'i', 's', 's'] ]

/-- Template-substitution example context: `opt` is bound, `miss` is not. -/
def c8Data : TemplateCtx := [(['o', 'p', 't'], ['A', 'l', 'p', 'h', 'a'])]

end SurveyApp

namespace SurveyApp

/-! ### Template substitution: theorems -/

theorem takeWhile_append_all {α : Type} (p : α → Bool) :
    ∀ (n l : List α), (∀ x ∈ n, p x = true) → (n ++ l).takeWhile p = n ++ l.takeWhile p := by
  intro n
  induction n with
  | nil => intro l _; rfl
  | cons c n' ih =>
    intro l h
    have hc : p c = true := h c (List.mem_cons_self c n')
    have h' : ∀ x ∈ n', p x = true := fun x hx => h x (List.mem_cons_of_mem _ hx)
    simp [List.takeWhile_cons, hc, ih l h']

theorem dropWhile_append_all {α : Type} (p : α → Bool) :
    ∀ (n l : List α), (∀ x ∈ n, p x = true) → (n ++ l).dropWhile p = l.dropWhile p := by
  intro n
  induction n with
  | nil => intro l _; rfl
  | cons c n' ih =>
    intro l h
    have hc : p c = true := h c (List.mem_cons_self c n')
    have h' : ∀ x ∈ n', p x = true := fun x hx => h x (List.mem_cons_of_mem _ hx)
    simp [List.dropWhile_cons, hc, ih l h']

theorem processTemplateAux_lit_run (data : TemplateCtx) :
    ∀ (s l : List Char), '{' ∉ s →
      processTemplateAux data (s ++ l) = s ++ processTemplateAux data l := by
  intro s
  induction s with
  | nil => intro l _; rfl
  | cons c s' ih =>
    intro l hs
    have hc : c ≠ '{' := fun h => hs (h ▸ List.mem_cons_self c s')
    have hs' : '{' ∉ s' := fun h => hs (List.mem_cons_of_mem _ h)
    rw [List.cons_append, processTemplateAux]
    rw [if_neg (fun hand => hc hand.1)]
    rw [ih l hs']
    rfl

theorem processTemplateAux_tok_head (data : TemplateCtx) (n fr : List Char)
    (hne : n ≠ []) (hn : '}' ∉ n) :
    processTemplateAux data ('{' :: '{' :: (n ++ '}' :: '}' :: fr)) =
      tokenResult data n ++ processTemplateAux data fr := by
  have hall : ∀ x ∈ n, (fun x => decide (x ≠ '}')) x = true := by
    intro x hx
    simp only [decide_eq_true_eq]
    exact fun h => hn (h ▸ hx)
  rw [processTemplateAux]
  rw [if_pos ⟨rfl, rfl⟩]
  have htake : (('{' :: (n ++ '}' :: '}' :: fr)).tail.takeWhile (fun x => decide (x ≠ '}'))) = n := by
    simp only [List.tail_cons]
    rw [takeWhile_append_all _ n _ hall]
    simp [List.takeWhile_cons]
  have hdrop : (('{' :: (n ++ '}' :: '}' :: fr)).tail.dropWhile (fun x => decide (x ≠ '}'))) =
      '}' :: '}' :: fr := by
    simp only [List.tail_cons]
    rw [dropWhile_append_all _ n _ hall]
    simp [List.dropWhile_cons]
  rw [if_pos]
  · rw [htake, hdrop]
    rfl
  · refine ⟨?_, ?_, ?_⟩
    · rw [htake]; exact hne
    · rw [hdrop]; rfl
    · rw [hdrop]; rfl

theorem substituteSegs_of_flatten_nil (data : TemplateCtx) :
    ∀ segs : List TemplateSeg, flattenSegs segs = [] → substituteSegs data segs = [] := by
  intro segs
  induction segs with
  | nil => intro _; rfl
  | cons s rest ih =>
    intro h
    cases s with
    | lit l =>
      rw [flattenSegs] at h
      rcases List.append_eq_nil.mp h with ⟨h1, h2⟩
      rw [substituteSegs, h1, ih h2]
      rfl
    | tok n =>
      rw [flattenSegs] at h
      exact absurd h (List.cons_ne_nil _ _)

theorem processTemplateAux_flatten (data : TemplateCtx) :
    ∀ segs : List TemplateSeg, segs.all segWF = true →
      processTemplateAux data (flattenSegs segs) = substituteSegs data segs := by
  intro segs
  induction segs with
  | nil =>
    intro _
    rw [flattenSegs, processTemplateAux]
    rfl
  | cons s rest ih =>
    intro h
    rw [List.all_cons, Bool.and_eq_true] at h
    obtain ⟨hs, hrest⟩ := h
    cases s with
    | lit l =>
      have hl : '{' ∉ l := by simpa [segWF] using hs
      rw [flattenSegs, substituteSegs, processTemplateAux_lit_run data l _ hl, ih hrest]
    | tok n =>
      have hn : n ≠ [] ∧ '}' ∉ n := by
        rw [segWF, Bool.and_eq_true, decide_eq_true_eq, decide_eq_true_eq] at hs
        exact hs
      rw [flattenSegs, substituteSegs, processTemplateAux_tok_head data n _ hn.1 hn.2, ih hrest]

/-- Claim C8: template substitution is a pure function over the text; every
`{{name}}` token whose (trimmed) name is a key of the context is replaced by
the context's value for that key, every token whose name is not in the
context passes through verbatim, and all other characters are unchanged:
`processTemplate` agrees with the per-segment substitution `substituteSegs`
on every well-formed segment decomposition. -/
theorem c8_template_substitution (data : TemplateCtx) (segs : List TemplateSeg)
    (h : segs.all segWF = true) :
    processTemplate (flattenSegs segs) (some data) = substituteSegs data segs := by
  have hunf : processTemplate (flattenSegs segs) (some data) =
      if flattenSegs segs = [] then flattenSegs segs
      else processTemplateAux data (flattenSegs segs) := rfl
  rw [hunf]
  by_cases hfl : flattenSegs segs = []
  · rw [if_pos hfl, hfl, substituteSegs_of_flatten_nil data segs hfl]
  · rw [if_neg hfl]
    exact processTemplateAux_flatten data segs h

/-- Claim C8 witness: a concrete text with one bound and one unbound token. -/
theorem c8_witness :
    c8Segs.all segWF = true ∧
      processTemplate (flattenSegs c8Segs) (some c8Data) = substituteSegs c8Data c8Segs :=
  ⟨by decide, c8_template_substitution c8Data c8Segs (by decide)⟩

/-! ### Reconciler: presence machinery -/

theorem bool_eq_of_iff {a b : Bool} (h : a = true ↔ b = true) : a = b := by
  cases a <;> cases b <;> simp_all

theorem presentOf_iff (t : List ViewNode) (j : String) :
    presentOf t j = true ↔ ∃ n ∈ t, n.questionId = j := by
  simp [presentOf, List.any_eq_true]

theorem presentOf_eq_false_iff (t : List ViewNode) (j : String) :
    presentOf t j = false ↔ ∀ n ∈ t, n.questionId ≠ j := by
  simp [presentOf, List.any_eq_false]

theorem perm_insertBeforeNode (n : ViewNode) (a : String) (t : List ViewNode) :
    List.Perm (insertBeforeNode n a t) (n :: t) := by
  induction t with
  | nil => simp [insertBeforeNode]
  | cons m rest ih =>
    by_cases h : m.questionId = a
    · rw [insertBeforeNode, if_pos h]
    · rw [insertBeforeNode, if_neg h]
      exact (List.Perm.cons m ih).trans (List.Perm.swap n m rest)

theorem presentOf_perm {t1 t2 : List ViewNode} (h : List.Perm t1 t2) (j : String) :
    presentOf t1 j = presentOf t2 j := by
  refine bool_eq_of_iff ?_
  rw [presentOf_iff, presentOf_iff]
  constructor
  · rintro ⟨n, hn, hid⟩; exact ⟨n, h.mem_iff.mp hn, hid⟩
  · rintro ⟨n, hn, hid⟩; exact ⟨n, h.mem_iff.mpr hn, hid⟩

theorem presentOf_insertBeforeNode (n : ViewNode) (a : String) (t : List ViewNode) (j : String) :
    presentOf (insertBeforeNode n a t) j = (decide (n.questionId = j) || presentOf t j) := by
  rw [presentOf_perm (perm_insertBeforeNode n a t) j]
  simp [presentOf, List.any_cons]

theorem presentOf_append_single (t : List ViewNode) (n : ViewNode) (j : String) :
    presentOf (t ++ [n]) j = (presentOf t j || decide (n.questionId = j)) := by
  simp [presentOf, List.any_append]

theorem nodup_ids_insertBeforeNode (n : ViewNode) (a : String) (t : List ViewNode)
    (ht : (t.map ViewNode.questionId).Nodup) (hn : presentOf t n.questionId = false) :
    ((insertBeforeNode n a t).map ViewNode.questionId).Nodup := by
  have hperm := (perm_insertBeforeNode n a t).map ViewNode.questionId
  refine hperm.symm.nodup ?_
  rw [List.map_cons, List.nodup_cons]
  refine ⟨?_, ht⟩
  intro hmem
  rcases List.mem_map.mp hmem with ⟨m, hm, hid⟩
  exact (presentOf_eq_false_iff t n.questionId).mp hn m hm hid

theorem nodup_ids_append_single (t : List ViewNode) (n : ViewNode)
    (ht : (t.map ViewNode.questionId).Nodup) (hn : presentOf t n.questionId = false) :
    (((t ++ [n]).map ViewNode.questionId)).Nodup := by
  have hperm : List.Perm (t ++ [n]) (n :: t) := List.perm_append_comm
  refine (hperm.map ViewNode.questionId).symm.nodup ?_
  rw [List.map_cons, List.nodup_cons]
  refine ⟨?_, ht⟩
  intro hmem
  rcases List.mem_map.mp hmem with ⟨m, hm, hid⟩
  exact (presentOf_eq_false_iff t n.questionId).mp hn m hm hid

theorem removeById_cons_pos (m : ViewNode) (rest : List ViewNode) (i : String)
    (h : m.questionId = i) : removeById (m :: rest) i = rest := by
  rw [removeById, List.eraseP_cons, decide_eq_true h]
  rfl

theorem removeById_cons_neg (m : ViewNode) (rest : List ViewNode) (i : String)
    (h : ¬ m.questionId = i) : removeById (m :: rest) i = m :: removeById rest i := by
  rw [removeById, List.eraseP_cons, decide_eq_false h]
  rfl

theorem presentOf_removeById_self (t : List ViewNode) (i : String)
    (ht : (t.map ViewNode.questionId).Nodup) :
    presentOf (removeById t i) i = false := by
  induction t with
  | nil => rfl
  | cons m rest ih =>
    rw [List.map_cons, List.nodup_cons] at ht
    obtain ⟨hm, hrest⟩ := ht
    by_cases h : m.questionId = i
    · rw [removeById_cons_pos m rest i h, presentOf_eq_false_iff]
      intro n hn hni
      exact hm (List.mem_map.mpr ⟨n, hn, by rw [hni, h]⟩)
    · rw [removeById_cons_neg m rest i h]
      have hih := ih hrest
      simp only [presentOf, List.any_cons] at hih ⊢
      simp [decide_eq_false h, hih]

theorem presentOf_removeById_ne (t : List ViewNode) (i j : String) (hj : j ≠ i) :
    presentOf (removeById t i) j = presentOf t j := by
  induction t with
  | nil => rfl
  | cons m rest ih =>
    by_cases h : m.questionId = i
    · rw [removeById_cons_pos m rest i h]
      have hd : decide (m.questionId = j) = false := by
        refine decide_eq_false ?_
        rw [h]
        exact fun hc => hj hc.symm
      simp only [presentOf, List.any_cons] at *
      simp [hd]
    · rw [removeById_cons_neg m rest i h]
      simp only [presentOf, List.any_cons] at *
      rw [ih]

theorem nodup_ids_removeById (t : List ViewNode) (i : String)
    (ht : (t.map ViewNode.questionId).Nodup) :
    ((removeById t i).map ViewNode.questionId).Nodup :=
  ht.sublist ((List.eraseP_sublist _).map _)

/-! ### Reconciler: per-question characterization -/

theorem presentOf_refreshStep1_self (render : Question → Option ViewNode)
    (evalC : Question → Bool) (questions : List Question) (tree : List ViewNode) (q : Question)
    (ht : (tree.map ViewNode.questionId).Nodup)
    (hr : ∀ n, render q = some n → n.questionId = q.id)
    (hc : q.conditions.isSome = true) :
    presentOf (refreshStep1 render evalC questions tree q) q.id =
      (evalC q && (presentOf tree q.id || (render q).isSome)) := by
  obtain ⟨cs, hcs⟩ := Option.isSome_iff_exists.mp hc
  by_cases he : evalC q
  · by_cases hp : presentOf tree q.id
    · simp [refreshStep1, hcs, he, hp]
    · cases hrq : render q with
      | none => simp [refreshStep1, hcs, he, hp, hrq]
      | some n =>
        have hid : n.questionId = q.id := hr n hrq
        cases ha : findAnchorQ tree (anchorSearchList questions q) with
        | some aq =>
          simp [refreshStep1, hcs, he, hp, hrq, ha, presentOf_insertBeforeNode, hid]
        | none =>
          simp [refreshStep1, hcs, he, hp, hrq, ha, presentOf_append_single, hid]
  · by_cases hp : presentOf tree q.id
    · simp [refreshStep1, hcs, he, hp, presentOf_removeById_self tree q.id ht]
    · simp [refreshStep1, hcs, he, hp]

theorem presentOf_refreshStep1_ne (render : Question → Option ViewNode)
    (evalC : Question → Bool) (questions : List Question) (tree : List ViewNode) (q : Question)
    (j : String) (hr : ∀ n, render q = some n → n.questionId = q.id) (hj : j ≠ q.id) :
    presentOf (refreshStep1 render evalC questions tree q) j = presentOf tree j := by
  cases hcs : q.conditions with
  | none => simp [refreshStep1, hcs]
  | some cs =>
    by_cases he : evalC q
    · by_cases hp : presentOf tree q.id
      · simp [refreshStep1, hcs, he, hp]
      · cases hrq : render q with
        | none => simp [refreshStep1, hcs, he, hp, hrq]
        | some n =>
          have hid : n.questionId = q.id := hr n hrq
          have hnid : decide (n.questionId = j) = false := by
            simp [hid]; exact fun hc => hj hc.symm
          cases ha : findAnchorQ tree (anchorSearchList questions q) with
          | some aq =>
            simp [refreshStep1, hcs, he, hp, hrq, ha, presentOf_insertBeforeNode, hnid]
          | none =>
            simp [refreshStep1, hcs, he, hp, hrq, ha, presentOf_append_single, hnid]
    · by_cases hp : presentOf tree q.id
      · simp [refreshStep1, hcs, he, hp, presentOf_removeById_ne tree q.id j hj]
      · simp [refreshStep1, hcs, he, hp]

theorem nodup_ids_refreshStep1 (render : Question → Option ViewNode)
    (evalC : Question → Bool) (questions : List Question) (tree : List ViewNode) (q : Question)
    (ht : (tree.map ViewNode.questionId).Nodup)
    (hr : ∀ n, render q = some n → n.questionId = q.id) :
    ((refreshStep1 render evalC questions tree q).map ViewNode.questionId).Nodup := by
  cases hcs : q.conditions with
  | none => simpa [refreshStep1, hcs] using ht
  | some cs =>
    by_cases he : evalC q
    · by_cases hp : presentOf tree q.id
      · simpa [refreshStep1, hcs, he, hp] using ht
      · cases hrq : render q with
        | none => simpa [refreshStep1, hcs, he, hp, hrq] using ht
        | some n =>
          have hid : n.questionId = q.id := hr n hrq
          have habs : presentOf tree n.questionId = false := by
            rw [hid]
            simpa using hp
          cases ha : findAnchorQ tree (anchorSearchList questions q) with
          | some aq =>
            simpa [refreshStep1, hcs, he, hp, hrq, ha] using
              nodup_ids_insertBeforeNode n aq.id tree ht habs
          | none =>
            simpa [refreshStep1, hcs, he, hp, hrq, ha] using
              nodup_ids_append_single tree n ht habs
    · by_cases hp : presentOf tree q.id
      · simpa [refreshStep1, hcs, he, hp] using nodup_ids_removeById tree q.id ht
      · simpa [refreshStep1, hcs, he, hp] using ht

/-! ### Reconciler: fold lemmas -/

theorem presentOf_foldl_ne (render : Question → Option ViewNode) (evalC : Question → Bool)
    (questions : List Question)
    (hr : ∀ q n, render q = some n → n.questionId = q.id) :
    ∀ (qs : List Question) (tree : List ViewNode) (j : String), (∀ q2 ∈ qs, j ≠ q2.id) →
      presentOf (qs.foldl (refreshStep1 render evalC questions) tree) j = presentOf tree j := by
  intro qs
  induction qs with
  | nil => intro tree j _; rfl
  | cons q1 rest ih =>
    intro tree j hj
    rw [List.foldl_cons]
    rw [ih _ j (fun q2 h2 => hj q2 (List.mem_cons_of_mem _ h2))]
    exact presentOf_refreshStep1_ne render evalC questions tree q1 j (hr q1)
      (hj q1 (List.mem_cons_self _ _))

theorem nodup_ids_foldl (render : Question → Option ViewNode) (evalC : Question → Bool)
    (questions : List Question)
    (hr : ∀ q n, render q = some n → n.questionId = q.id) :
    ∀ (qs : List Question) (tree : List ViewNode), (tree.map ViewNode.questionId).Nodup →
      ((qs.foldl (refreshStep1 render evalC questions) tree).map ViewNode.questionId).Nodup := by
  intro qs
  induction qs with
  | nil => intro tree ht; exact ht
  | cons q1 rest ih =>
    intro tree ht
    rw [List.foldl_cons]
    exact ih _ (nodup_ids_refreshStep1 render evalC questions tree q1 ht (hr q1))

theorem presentOf_refresh_settle (render : Question → Option ViewNode) (evalC : Question → Bool)
    (questions : List Question)
    (hr : ∀ q n, render q = some n → n.questionId = q.id) :
    ∀ (qs : List Question) (tree : List ViewNode),
      (qs.map Question.id).Nodup → (tree.map ViewNode.questionId).Nodup →
      ∀ q ∈ qs, q.conditions.isSome = true →
        presentOf (qs.foldl (refreshStep1 render evalC questions) tree) q.id =
          (evalC q && (presentOf tree q.id || (render q).isSome)) := by
  intro qs
  induction qs with
  | nil => intro tree _ _ q hq; cases hq
  | cons q1 rest ih =>
    intro tree hn ht q hq hc
    rw [List.map_cons, List.nodup_cons] at hn
    obtain ⟨hq1, hrest⟩ := hn
    rw [List.foldl_cons]
    rcases List.mem_cons.mp hq with hq | hq
    · subst hq
      rw [presentOf_foldl_ne render evalC questions hr rest _ q.id
        (fun q2 h2 hc2 => hq1 (hc2 ▸ List.mem_map.mpr ⟨q2, h2, rfl⟩))]
      exact presentOf_refreshStep1_self render evalC questions tree q ht (hr q) hc
    · have hne : q.id ≠ q1.id := by
        intro hc2
        exact hq1 (hc2 ▸ List.mem_map.mpr ⟨q, hq, rfl⟩)
      rw [ih _ hrest (nodup_ids_refreshStep1 render evalC questions tree q1 ht (hr q1)) q hq hc]
      rw [presentOf_refreshStep1_ne render evalC questions tree q1 q.id (hr q1) hne]

theorem foldl_fixed {α β : Type} (f : α → β → α) :
    ∀ (qs : List β) (t : α), (∀ q ∈ qs, f t q = t) → qs.foldl f t = t := by
  intro qs
  induction qs with
  | nil => intro t _; rfl
  | cons q1 rest ih =>
    intro t h
    rw [List.foldl_cons, h q1 (List.mem_cons_self _ _)]
    exact ih t (fun q hq => h q (List.mem_cons_of_mem _ hq))

/-- Claim C2: for every step and every (well-formed) view tree, a second
`refreshConditionalQuestions` call with no response-store change (same
condition oracle) performs zero additional tree mutations: the result of the
second call is exactly the result of the first, each question whose desired
visibility already matches its rendered presence being a no-op. -/
theorem c2_refresh_idempotent (render : Question → Option ViewNode) (evalC : Question → Bool)
    (step : Step) (tree : List ViewNode)
    (hq : (step.questions.map Question.id).Nodup)
    (ht : (tree.map ViewNode.questionId).Nodup)
    (hr : ∀ q n, render q = some n → n.questionId = q.id) :
    refreshConditionalQuestions render evalC step
        (refreshConditionalQuestions render evalC step tree) =
      refreshConditionalQuestions render evalC step tree := by
  have hfix : ∀ q ∈ step.questions,
      refreshStep1 render evalC step.questions
        (refreshConditionalQuestions render evalC step tree) q =
      refreshConditionalQuestions render evalC step tree := by
    intro q hmem
    cases hcs : q.conditions with
    | none => simp [refreshStep1, hcs]
    | some cs =>
      have hc : q.conditions.isSome = true := by rw [hcs]; rfl
      have hset := presentOf_refresh_settle render evalC step.questions hr step.questions tree
        hq ht q hmem hc
      by_cases he : evalC q
      · by_cases hp : presentOf (refreshConditionalQuestions render evalC step tree) q.id
        · simp [refreshStep1, hcs, he, hp]
        · rw [refreshConditionalQuestions] at hp
          have hor : (presentOf tree q.id || (render q).isSome) = false := by
            rw [hset, he] at hp
            simpa using hp
          have hrn : render q = none := by
            cases hrq : render q with
            | none => rfl
            | some n => rw [hrq] at hor; simp at hor
          have hp' : presentOf (refreshConditionalQuestions render evalC step tree) q.id = false := by
            rw [refreshConditionalQuestions]
            rw [hset, he]
            simpa using hor
          simp [refreshStep1, hcs, he, hp', hrn]
      · have hp' : presentOf (refreshConditionalQuestions render evalC step tree) q.id = false := by
          rw [refreshConditionalQuestions, hset]
          simp [he]
        simp [refreshStep1, hcs, he, hp']
  rw [refreshConditionalQuestions]
  exact foldl_fixed _ step.questions _ hfix

theorem renderVia_questionId : ∀ (q : Question) (n : ViewNode),
    renderVia q = some n → n.questionId = q.id := by
  intro q n h
  rw [renderVia, renderQuestion, renderQuestionNode] at h
  by_cases hk : q.qtype ∈ knownQuestionTypes
  · rw [if_pos hk] at h
    injection h with h'
    rw [← h']
  · rw [if_neg hk] at h
    exact absurd h (by simp)

/-- Claim C2 witness: a concrete step and tree on which the second refresh is
the identity. -/
theorem c2_witness :
    (wStep.questions.map Question.id).Nodup ∧ (wTree.map ViewNode.questionId).Nodup ∧
      refreshConditionalQuestions renderVia (fun _ => true) wStep
          (refreshConditionalQuestions renderVia (fun _ => true) wStep wTree) =
        refreshConditionalQuestions renderVia (fun _ => true) wStep wTree :=
  ⟨by decide, by decide,
    c2_refresh_idempotent renderVia (fun _ => true) wStep wTree (by decide) (by decide)
      renderVia_questionId⟩

/-- Claim C5: a question whose ConditionSet contains a malformed rule (missing
`questionId` or an operator the evaluator does not recognize) is always hidden
after a refresh: its node is absent from the resulting tree, whatever the
store contents and starting tree; the pass itself is a total function, so no
fault propagates. -/
theorem c5_fail_closed (store : Store) (step : Step) (tree : List ViewNode)
    (q : Question) (cs : ConditionSet) (r : Rule)
    (hq : (step.questions.map Question.id).Nodup)
    (ht : (tree.map ViewNode.questionId).Nodup)
    (hmem : q ∈ step.questions) (hcs : q.conditions = some cs) (hr : r ∈ cs.rules)
    (hbad : r.questionId = none ∨ r.operator ≠ "equals") :
    presentOf (refreshConditionalQuestions renderVia (shouldShowQuestion store) step tree)
      q.id = false := by
  have hre : evalRule store r = false := by
    cases hqid : r.questionId with
    | none => simp [evalRule, hqid]
    | some qid =>
      rcases hbad with hb | hb
      · rw [hqid] at hb; cases hb
      · simp only [evalRule, hqid]
        rw [if_neg hb]
  have heval : shouldShowQuestion store q = false := by
    rw [shouldShowQuestion, hcs]
    exact List.all_eq_false.mpr ⟨r, hr, by simp [hre]⟩
  have hc : q.conditions.isSome = true := by rw [hcs]; rfl
  rw [refreshConditionalQuestions]
  rw [presentOf_refresh_settle renderVia (shouldShowQuestion store)
    step.questions renderVia_questionId step.questions tree hq ht q hmem hc]
  rw [heval]
  rfl

/-- Claim C5 witness: the malformed-rule question is removed from the tree. -/
theorem c5_witness :
    presentOf
      (refreshConditionalQuestions renderVia (shouldShowQuestion []) w5Step
        [{ questionId := "QB" }]) w5Question.id = false :=
  c5_fail_closed [] w5Step [{ questionId := "QB" }] w5Question
    { rules := [{ questionId := some "Q1", operator := "weird", value := "x" }] }
    { questionId := some "Q1", operator := "weird", value := "x" }
    (by decide) (by decide) (by decide) rfl (by decide) (Or.inr (by decide))

/-- Claim C6: when the question factory fails to materialize one newly-visible
question (returns no node), that question remains absent from the view tree,
while the reconciliation pass still settles every question of the step to its
expected presence; the pass is a total function, so no fault escapes. -/
theorem c6_render_failure (render : Question → Option ViewNode) (evalC : Question → Bool)
    (step : Step) (tree : List ViewNode) (q0 : Question)
    (hq : (step.questions.map Question.id).Nodup)
    (ht : (tree.map ViewNode.questionId).Nodup)
    (hr : ∀ q n, render q = some n → n.questionId = q.id)
    (hmem : q0 ∈ step.questions) (hc0 : q0.conditions.isSome = true)
    (hfail : render q0 = none) (habs : presentOf tree q0.id = false) :
    presentOf (refreshConditionalQuestions render evalC step tree) q0.id = false ∧
      ∀ q ∈ step.questions, q.conditions.isSome = true →
        presentOf (refreshConditionalQuestions render evalC step tree) q.id =
          (evalC q && (presentOf tree q.id || (render q).isSome)) := by
  constructor
  · rw [refreshConditionalQuestions]
    rw [presentOf_refresh_settle render evalC step.questions hr step.questions tree hq ht
      q0 hmem hc0]
    rw [hfail, habs]
    simp
  · intro q hq' hc
    rw [refreshConditionalQuestions]
    exact presentOf_refresh_settle render evalC step.questions hr step.questions tree hq ht
      q hq' hc

/-- Claim C6 witness: a step where the factory cannot render `QX` but renders
`QY`; `QX` stays absent while `QY` is reconciled. -/
theorem c6_witness :
    presentOf (refreshConditionalQuestions renderVia (fun _ => true) w6Step []) w6Broken.id =
      false :=
  (c6_render_failure renderVia (fun _ => true) w6Step [] w6Broken (by decide) (by decide)
    renderVia_questionId (by decide) rfl (by decide) rfl).1

/-! ### Reconciler ordering: id-level lemmas -/

theorem laterIds_subset : ∀ (l : List String) (x c : String), c ∈ laterIds x l → c ∈ l := by
  intro l
  induction l with
  | nil => intro x c h; rw [laterIds] at h; cases h
  | cons i rest ih =>
    intro x c h
    by_cases hix : i = x
    · rw [laterIds, if_pos hix] at h
      exact List.mem_cons_of_mem _ h
    · rw [laterIds, if_neg hix] at h
      exact List.mem_cons_of_mem _ (ih x c h)

theorem findAnchorS_eq_none_iff :
    ∀ (cands T : List String), findAnchorS T cands = none ↔ ∀ c ∈ cands, c ∉ T := by
  intro cands
  induction cands with
  | nil => intro T; simp [findAnchorS]
  | cons c rest ih =>
    intro T
    by_cases h : c ∈ T
    · rw [findAnchorS, if_pos h]
      simp [h]
    · rw [findAnchorS, if_neg h]
      rw [ih T]
      constructor
      · intro hall d hd
        rcases List.mem_cons.mp hd with h1 | h1
        · rw [h1]; exact h
        · exact hall d h1
      · intro hall d hd
        exact hall d (List.mem_cons_of_mem _ hd)

theorem findAnchorS_mem :
    ∀ (cands T : List String) (a : String), findAnchorS T cands = some a →
      a ∈ cands ∧ a ∈ T := by
  intro cands
  induction cands with
  | nil => intro T a h; rw [findAnchorS] at h; cases h
  | cons c rest ih =>
    intro T a h
    by_cases hc : c ∈ T
    · rw [findAnchorS, if_pos hc] at h
      injection h with h'
      rw [← h']
      exact ⟨List.mem_cons_self c rest, hc⟩
    · rw [findAnchorS, if_neg hc] at h
      obtain ⟨h1, h2⟩ := ih T a h
      exact ⟨List.mem_cons_of_mem _ h1, h2⟩

theorem findAnchorS_nil_tids (cands : List String) : findAnchorS [] cands = none :=
  (findAnchorS_eq_none_iff cands []).mpr (fun c _ hc => (List.not_mem_nil c) hc)

theorem findAnchorS_cons_tids_ne :
    ∀ (cands : List String) (q : String) (T : List String), (∀ c ∈ cands, c ≠ q) →
      findAnchorS (q :: T) cands = findAnchorS T cands := by
  intro cands
  induction cands with
  | nil => intro q T _; rfl
  | cons c rest ih =>
    intro q T hall
    have hcq : c ≠ q := hall c (List.mem_cons_self c rest)
    by_cases h : c ∈ T
    · rw [findAnchorS, if_pos (List.mem_cons_of_mem _ h), findAnchorS, if_pos h]
    · have hnc : c ∉ q :: T := by
        intro hmem
        rcases List.mem_cons.mp hmem with h1 | h1
        · exact hcq h1
        · exact h h1
      rw [findAnchorS, if_neg hnc, findAnchorS, if_neg h]
      exact ih q T (fun d hd => hall d (List.mem_cons_of_mem _ hd))

theorem sublist_of_cons_of_not_mem {T qs : List String} {q : String}
    (h : List.Sublist T (q :: qs)) (hq : q ∉ T) : List.Sublist T qs := by
  cases h with
  | cons _ h' => exact h'
  | cons₂ _ h' => exact absurd (List.mem_cons_self _ _) hq

theorem findAnchorS_head :
    ∀ (qs : List String), qs.Nodup → ∀ (t0 : String) (T2 : List String),
      List.Sublist (t0 :: T2) qs → findAnchorS (t0 :: T2) qs = some t0 := by
  intro qs
  induction qs with
  | nil => intro _ t0 T2 h; exact absurd (List.sublist_nil.mp h) (List.cons_ne_nil _ _)
  | cons q' qs' ih =>
    intro hnd t0 T2 h
    rw [List.nodup_cons] at hnd
    obtain ⟨hq', hnd'⟩ := hnd
    cases h with
    | cons _ h' =>
      have hnm : q' ∉ t0 :: T2 := fun hmem => hq' (h'.subset hmem)
      rw [findAnchorS, if_neg hnm]
      exact ih hnd' t0 T2 h'
    | cons₂ _ h' =>
      rw [findAnchorS, if_pos (List.mem_cons_self _ _)]

theorem insertBeforeS_head_eq (x a : String) (T : List String) :
    insertBeforeS x a (a :: T) = x :: a :: T := by
  rw [insertBeforeS, if_pos rfl]

theorem insertBeforeS_cons_ne (x a y : String) (T : List String) (h : y ≠ a) :
    insertBeforeS x a (y :: T) = y :: insertBeforeS x a T := by
  rw [insertBeforeS, if_neg h]

theorem sublist_insert_anchor :
    ∀ (qids : List String), qids.Nodup → ∀ (T : List String), List.Sublist T qids →
      ∀ x, x ∈ qids → x ∉ T →
      List.Sublist
        (match findAnchorS T (laterIds x qids) with
         | some a => insertBeforeS x a T
         | none => T ++ [x]) qids := by
  intro qids
  induction qids with
  | nil => intro _ T _ x hx; cases hx
  | cons q qs ih =>
    intro hnd T hT x hx hxT
    rw [List.nodup_cons] at hnd
    obtain ⟨hqqs, hnd'⟩ := hnd
    by_cases hxq : x = q
    · subst hxq
      have hlater : laterIds x (x :: qs) = qs := by rw [laterIds, if_pos rfl]
      rw [hlater]
      cases hfa : findAnchorS T qs with
      | none =>
        have hTnil : T = [] := by
          rw [List.eq_nil_iff_forall_not_mem]
          intro t ht
          have htx : t ≠ x := fun h => hxT (h ▸ ht)
          rcases List.mem_cons.mp (hT.subset ht) with h1 | h1
          · exact htx h1
          · exact (findAnchorS_eq_none_iff qs T).mp hfa t h1 ht
        rw [hTnil]
        show List.Sublist ([] ++ [x]) (x :: qs)
        rw [List.nil_append]
        exact (List.nil_sublist qs).cons₂ x
      | some a =>
        have hTqs : List.Sublist T qs := sublist_of_cons_of_not_mem hT hxT
        cases T with
        | nil =>
          rw [findAnchorS_nil_tids qs] at hfa
          cases hfa
        | cons t0 T2 =>
          have hhead := findAnchorS_head qs hnd' t0 T2 hTqs
          rw [hhead] at hfa
          injection hfa with ha
          subst ha
          show List.Sublist (insertBeforeS x t0 (t0 :: T2)) (x :: qs)
          rw [insertBeforeS_head_eq]
          exact hTqs.cons₂ x
    · have hqx : ¬ q = x := fun h => hxq h.symm
      have hlater : laterIds x (q :: qs) = laterIds x qs := by
        rw [laterIds, if_neg hqx]
      rw [hlater]
      have hxqs : x ∈ qs := by
        rcases List.mem_cons.mp hx with h1 | h1
        · exact absurd h1 hxq
        · exact h1
      by_cases hqT : q ∈ T
      · cases T with
        | nil => cases hqT
        | cons t0 T2 =>
          have ht0 : t0 = q := by
            by_contra hne
            cases hT with
            | cons _ h' => exact hqqs (h'.subset hqT)
            | cons₂ _ h' => exact hne rfl
          subst ht0
          have hT2sub : List.Sublist T2 qs := by
            cases hT with
            | cons _ h' => exact absurd (h'.subset (List.mem_cons_self t0 T2)) hqqs
            | cons₂ _ h' => exact h'
          have hcands : ∀ c ∈ laterIds x qs, c ≠ t0 := by
            intro c hc hcq
            exact hqqs (hcq ▸ laterIds_subset qs x c hc)
          rw [findAnchorS_cons_tids_ne (laterIds x qs) t0 T2 hcands]
          have hxT2 : x ∉ T2 := fun h => hxT (List.mem_cons_of_mem _ h)
          have hih := ih hnd' T2 hT2sub x hxqs hxT2
          cases hfa : findAnchorS T2 (laterIds x qs) with
          | some a =>
            rw [hfa] at hih
            have haq : t0 ≠ a := by
              intro h
              exact hqqs (h ▸ (laterIds_subset qs x a
                (findAnchorS_mem (laterIds x qs) T2 a hfa).1))
            show List.Sublist (insertBeforeS x a (t0 :: T2)) (t0 :: qs)
            rw [insertBeforeS_cons_ne x a t0 T2 haq]
            exact hih.cons₂ t0
          | none =>
            rw [hfa] at hih
            show List.Sublist ((t0 :: T2) ++ [x]) (t0 :: qs)
            rw [List.cons_append]
            exact hih.cons₂ t0
      · have hTqs : List.Sublist T qs := sublist_of_cons_of_not_mem hT hqT
        have hih := ih hnd' T hTqs x hxqs hxT
        cases hfa : findAnchorS T (laterIds x qs) with
        | some a =>
          rw [hfa] at hih
          exact hih.cons q
        | none =>
          rw [hfa] at hih
          exact hih.cons q

/-! ### Reconciler ordering: commuting the code to the id level -/

theorem map_insertBeforeNode (n : ViewNode) (a : String) :
    ∀ t : List ViewNode,
      (insertBeforeNode n a t).map ViewNode.questionId =
        insertBeforeS n.questionId a (t.map ViewNode.questionId) := by
  intro t
  induction t with
  | nil => rfl
  | cons m rest ih =>
    by_cases h : m.questionId = a
    · rw [insertBeforeNode, if_pos h]
      simp only [List.map_cons]
      rw [insertBeforeS, if_pos h]
    · rw [insertBeforeNode, if_neg h]
      simp only [List.map_cons]
      rw [insertBeforeS, if_neg h, ih]

theorem findAnchorQ_map :
    ∀ (cands : List Question) (tree : List ViewNode),
      Option.map Question.id (findAnchorQ tree cands) =
        findAnchorS (tree.map ViewNode.questionId) (cands.map Question.id) := by
  intro cands
  induction cands with
  | nil => intro tree; rfl
  | cons q2 rest ih =>
    intro tree
    rw [List.map_cons, findAnchorQ, findAnchorS]
    by_cases h : presentOf tree q2.id = true
    · have hm : q2.id ∈ tree.map ViewNode.questionId := by
        rcases (presentOf_iff tree q2.id).mp h with ⟨n, hn, hid⟩
        exact List.mem_map.mpr ⟨n, hn, hid⟩
      rw [if_pos h, if_pos hm]
      rfl
    · have hm : q2.id ∉ tree.map ViewNode.questionId := by
        intro hmem
        rcases List.mem_map.mp hmem with ⟨n, hn, hid⟩
        exact h ((presentOf_iff tree q2.id).mpr ⟨n, hn, hid⟩)
      rw [if_neg h, if_neg hm]
      exact ih tree

theorem anchorSearchList_map :
    ∀ (questions : List Question) (q : Question), q.id ∈ questions.map Question.id →
      (anchorSearchList questions q).map Question.id =
        laterIds q.id (questions.map Question.id) := by
  intro questions
  induction questions with
  | nil => intro q hq; cases hq
  | cons q0 rest ih =>
    intro q hq
    by_cases h : q0.id = q.id
    · rw [anchorSearchList, List.findIdx_cons]
      rw [decide_eq_true h]
      rw [List.map_cons, laterIds, if_pos h]
      simp
    · rw [anchorSearchList, List.findIdx_cons]
      rw [decide_eq_false h]
      rw [List.map_cons, laterIds, if_neg h]
      have hq' : q.id ∈ rest.map Question.id := by
        rcases List.mem_cons.mp hq with h1 | h1
        · exact absurd h1.symm h
        · exact h1
      have := ih q hq'
      rw [anchorSearchList] at this
      simp only [cond_false]
      rw [List.drop_succ_cons]
      exact this

theorem refreshStep1_sublist (render : Question → Option ViewNode) (evalC : Question → Bool)
    (questions : List Question) (tree : List ViewNode) (q : Question)
    (hnd : (questions.map Question.id).Nodup)
    (hr : ∀ n, render q = some n → n.questionId = q.id)
    (hq : q ∈ questions)
    (hT : List.Sublist (tree.map ViewNode.questionId) (questions.map Question.id)) :
    List.Sublist ((refreshStep1 render evalC questions tree q).map ViewNode.questionId)
      (questions.map Question.id) := by
  cases hcs : q.conditions with
  | none => simpa [refreshStep1, hcs] using hT
  | some cs =>
    by_cases he : evalC q
    · by_cases hp : presentOf tree q.id = true
      · simpa [refreshStep1, hcs, he, hp] using hT
      · cases hrq : render q with
        | none => simpa [refreshStep1, hcs, he, hp, hrq] using hT
        | some n =>
          have hid := hr n hrq
          have hp' : presentOf tree q.id = false := by simpa using hp
          have hxT : q.id ∉ tree.map ViewNode.questionId := by
            intro hmem
            rcases List.mem_map.mp hmem with ⟨m, hm, hidm⟩
            exact (presentOf_eq_false_iff tree q.id).mp hp' m hm hidm
          have hxq : q.id ∈ questions.map Question.id := List.mem_map.mpr ⟨q, hq, rfl⟩
          have hmain := sublist_insert_anchor (questions.map Question.id) hnd
            (tree.map ViewNode.questionId) hT q.id hxq hxT
          have hanch := findAnchorQ_map (anchorSearchList questions q) tree
          rw [anchorSearchList_map questions q hxq] at hanch
          cases ha : findAnchorQ tree (anchorSearchList questions q) with
          | some aq =>
            rw [ha] at hanch
            rw [← hanch] at hmain
            simp only [refreshStep1, hcs, he, hp', hrq, ha]
            simp only [Bool.not_false, Bool.and_true, if_true]
            rw [map_insertBeforeNode, hid]
            simpa using hmain
          | none =>
            rw [ha] at hanch
            rw [← hanch] at hmain
            simp only [refreshStep1, hcs, he, hp', hrq, ha]
            simp only [Bool.not_false, Bool.and_true, if_true]
            rw [List.map_append]
            simpa [hid] using hmain
    · by_cases hp : presentOf tree q.id = true
      · have hsub : List.Sublist ((removeById tree q.id).map ViewNode.questionId)
            (tree.map ViewNode.questionId) := (List.eraseP_sublist _).map _
        simpa [refreshStep1, hcs, he, hp] using hsub.trans hT
      · simpa [refreshStep1, hcs, he, hp] using hT

theorem refresh_sublist_fold (render : Question → Option ViewNode) (evalC : Question → Bool)
    (questions : List Question)
    (hnd : (questions.map Question.id).Nodup)
    (hr : ∀ q n, render q = some n → n.questionId = q.id) :
    ∀ (qs : List Question) (tree : List ViewNode), (∀ q ∈ qs, q ∈ questions) →
      List.Sublist (tree.map ViewNode.questionId) (questions.map Question.id) →
      List.Sublist
        ((qs.foldl (refreshStep1 render evalC questions) tree).map ViewNode.questionId)
        (questions.map Question.id) := by
  intro qs
  induction qs with
  | nil => intro tree _ hT; exact hT
  | cons q1 rest ih =>
    intro tree hmem hT
    rw [List.foldl_cons]
    exact ih _ (fun q hq => hmem q (List.mem_cons_of_mem _ hq))
      (refreshStep1_sublist render evalC questions tree q1 hnd (hr q1)
        (hmem q1 (List.mem_cons_self _ _)) hT)

/-- Claim C3: after any refresh from a tree whose nodes are step questions in
`orderedQuestions` relative order, the nodes still appear in that relative
order: the node-id sequence of the tree stays a sublist of the step's id
sequence, whichever questions became visible or hidden — newly visible
questions are inserted before the nearest later live question and appended at
the end when none exists. -/
theorem c3_refresh_order (render : Question → Option ViewNode) (evalC : Question → Bool)
    (step : Step) (tree : List ViewNode)
    (hnd : (step.questions.map Question.id).Nodup)
    (hr : ∀ q n, render q = some n → n.questionId = q.id)
    (hT : List.Sublist (tree.map ViewNode.questionId) (step.questions.map Question.id)) :
    List.Sublist
      ((refreshConditionalQuestions render evalC step tree).map ViewNode.questionId)
      (step.questions.map Question.id) := by
  rw [refreshConditionalQuestions]
  exact refresh_sublist_fold render evalC step.questions hnd hr step.questions tree
    (fun q hq => hq) hT

/-- Claim C3 witness: inserting `Q1` and `Q3` around the live `Q2` keeps the
tree in `orderedQuestions` order. -/
theorem c3_witness :
    List.Sublist (wTree.map ViewNode.questionId) (wStep.questions.map Question.id) ∧
      List.Sublist
        ((refreshConditionalQuestions renderVia (fun _ => true) wStep wTree).map
          ViewNode.questionId)
        (wStep.questions.map Question.id) :=
  ⟨by decide,
    c3_refresh_order renderVia (fun _ => true) wStep wTree (by decide) renderVia_questionId
      (by decide)⟩

/-! ### Option-specific questions: insertion position -/

theorem find?_append_first (p : ViewNode → Bool) :
    ∀ (A : List ViewNode) (t : ViewNode) (B : List ViewNode),
      (∀ m ∈ A, p m = false) → p t = true → (A ++ t :: B).find? p = some t := by
  intro A
  induction A with
  | nil =>
    intro t B _ hp
    rw [List.nil_append]
    exact List.find?_cons_of_pos B hp
  | cons m A2 ih =>
    intro t B hA hp
    rw [List.cons_append]
    rw [List.find?_cons_of_neg _ (by simp [hA m (List.mem_cons_self m A2)])]
    exact ih t B (fun x hx => hA x (List.mem_cons_of_mem _ hx)) hp

theorem filter_eq_nil_of_all_false (p : ViewNode → Bool) (l : List ViewNode)
    (h : ∀ m ∈ l, p m = false) : l.filter p = [] :=
  List.filter_eq_nil_iff.mpr (fun a ha => by simp [h a ha])

theorem insertAfterNode_spec (nw : ViewNode) :
    ∀ (X : List ViewNode) (t : ViewNode) (Y : List ViewNode), (∀ m ∈ X, m ≠ t) →
      insertAfterNode t nw (X ++ t :: Y) = X ++ t :: nw :: Y := by
  intro X
  induction X with
  | nil =>
    intro t Y _
    rw [List.nil_append, insertAfterNode, if_pos rfl]
    rfl
  | cons m X2 ih =>
    intro t Y hX
    rw [List.cons_append, insertAfterNode, if_neg (hX m (List.mem_cons_self m X2))]
    rw [ih t Y (fun x hx => hX x (List.mem_cons_of_mem _ hx))]
    rfl

theorem find?_eq_none_of_all_false (p : ViewNode → Bool) (l : List ViewNode)
    (h : ∀ m ∈ l, p m = false) : l.find? p = none :=
  List.find?_eq_none.mpr (fun a ha hp => by rw [h a ha] at hp; cases hp)

/-- Claim C4: with the trigger's node live and no option-specific sibling yet,
checking an option whose two matching questions are `q4` then `q5` (declaration
order) inserts `q4`'s node immediately after the trigger's node and `q5`'s
node immediately after `q4`'s (append-to-group after the last existing
sibling), yielding declaration order, with the pending-removal queue
untouched. -/
theorem c4_option_insert (render : Question → Option ViewNode) (questions : List Question)
    (detail : OptionToggleDetail) (now : Nat) (A B : List ViewNode) (trig : ViewNode)
    (pend : List (ViewNode × Nat)) (q4 q5 : Question) (n40 n50 : ViewNode)
    (hrel : relatedOptionQuestionsFor questions detail = [q4, q5])
    (hchk : detail.checked = true)
    (htrig : trig.questionId = detail.questionId)
    (hA : ∀ m ∈ A, m.questionId ≠ detail.questionId)
    (hnl : ∀ m ∈ A ++ trig :: B, m.linkedQuestionId ≠ some detail.questionId)
    (h4abs : ∀ m ∈ A ++ trig :: B,
      ¬(m.questionId = q4.id ∧ m.forOptionId = some detail.optionId))
    (h5abs : ∀ m ∈ A ++ trig :: B,
      ¬(m.questionId = q5.id ∧ m.forOptionId = some detail.optionId))
    (hr4 : render q4 = some n40) (hr5 : render q5 = some n50)
    (hid4 : n40.questionId = q4.id) (h45 : q4.id ≠ q5.id) :
    (handleOptionToggle render questions detail now { tree := A ++ trig :: B, pending := pend })
      = { tree := A ++ trig :: mkOptionNode n40 detail :: mkOptionNode n50 detail :: B,
          pending := pend } := by
  have hne : (relatedOptionQuestionsFor questions detail).isEmpty = false := by
    rw [hrel]; rfl
  rw [handleOptionToggle, hne]
  simp only [Bool.false_eq_true, if_false]
  rw [hrel, handleOptionSpecificQuestions, List.foldl_cons, List.foldl_cons, List.foldl_nil]
  -- first insertion: q4 goes directly after the trigger
  have hfind4 : (A ++ trig :: B).find? (optionNodeSelector q4.id detail.optionId) = none := by
    refine find?_eq_none_of_all_false _ _ ?_
    intro m hm
    have := h4abs m hm
    simp [optionNodeSelector]
    intro h1 h2
    exact this ⟨h1, h2⟩
  have htrigA : ∀ m ∈ A, (fun n => decide (n.questionId = detail.questionId)) m = false := by
    intro m hm
    simp [hA m hm]
  have htfind : (A ++ trig :: B).find? (fun n => decide (n.questionId = detail.questionId)) =
      some trig :=
    find?_append_first _ A trig B htrigA (by simp [htrig])
  have hfilter : (A ++ trig :: B).filter
      (fun n => decide (n.linkedQuestionId = some detail.questionId)) = [] := by
    refine filter_eq_nil_of_all_false _ _ ?_
    intro m hm
    simp [hnl m hm]
  have hAne : ∀ m ∈ A, m ≠ trig := by
    intro m hm hmeq
    exact hA m hm (hmeq ▸ htrig)
  have hstep1 : handleOneOptionQuestion render detail now
      { tree := A ++ trig :: B, pending := pend } q4 =
      { tree := A ++ trig :: mkOptionNode n40 detail :: B, pending := pend } := by
    rw [handleOneOptionQuestion]
    simp only [hfind4, hchk, if_true, hr4, htfind, hfilter]
    rw [insertAfterNode_spec (mkOptionNode n40 detail) A trig B hAne]
    rfl
  rw [hstep1]
  -- second insertion: q5 goes after the last option-specific sibling, q4's node
  set n4 : ViewNode := mkOptionNode n40 detail with hn4
  have hn4link : n4.linkedQuestionId = some detail.questionId := rfl
  have hn4id : n4.questionId = q4.id := hid4
  have hfind5 : (A ++ trig :: n4 :: B).find? (optionNodeSelector q5.id detail.optionId) =
      none := by
    refine find?_eq_none_of_all_false _ _ ?_
    intro m hm
    rcases List.mem_append.mp hm with hm1 | hm2
    · have := h5abs m (List.mem_append.mpr (Or.inl hm1))
      simp [optionNodeSelector]
      intro h1 h2
      exact this ⟨h1, h2⟩
    · rcases List.mem_cons.mp hm2 with hm3 | hm4
      · have := h5abs m (by rw [hm3]; exact List.mem_append.mpr (Or.inr (List.mem_cons_self _ _)))
        simp [optionNodeSelector]
        intro h1 h2
        exact this ⟨h1, h2⟩
      · rcases List.mem_cons.mp hm4 with hm5 | hm6
        · rw [hm5]
          simp [optionNodeSelector, hn4id]
          intro h1
          exact absurd h1 h45
        · have := h5abs m (List.mem_append.mpr (Or.inr (List.mem_cons_of_mem _ hm6)))
          simp [optionNodeSelector]
          intro h1 h2
          exact this ⟨h1, h2⟩
  have htfind5 : (A ++ trig :: n4 :: B).find?
      (fun n => decide (n.questionId = detail.questionId)) = some trig :=
    find?_append_first _ A trig (n4 :: B) htrigA (by simp [htrig])
  have hfA : A.filter (fun n => decide (n.linkedQuestionId = some detail.questionId)) = [] := by
    refine filter_eq_nil_of_all_false _ _ ?_
    intro m hm
    simp [hnl m (List.mem_append.mpr (Or.inl hm))]
  have hfB : B.filter (fun n => decide (n.linkedQuestionId = some detail.questionId)) = [] := by
    refine filter_eq_nil_of_all_false _ _ ?_
    intro m hm
    simp [hnl m (List.mem_append.mpr (Or.inr (List.mem_cons_of_mem _ hm)))]
  have hfiltrig : decide (trig.linkedQuestionId = some detail.questionId) = false := by
    simp [hnl trig (List.mem_append.mpr (Or.inr (List.mem_cons_self _ _)))]
  have hfilter5 : (A ++ trig :: n4 :: B).filter
      (fun n => decide (n.linkedQuestionId = some detail.questionId)) = [n4] := by
    rw [List.filter_append, hfA, List.filter_cons, hfiltrig]
    simp only [Bool.false_eq_true, if_false]
    rw [List.filter_cons]
    rw [decide_eq_true hn4link]
    simp only [if_true]
    rw [hfB]
    rfl
  have hXne : ∀ m ∈ A ++ [trig], m ≠ n4 := by
    intro m hm hmeq
    have hml : m.linkedQuestionId = some detail.questionId := by rw [hmeq]; exact hn4link
    rcases List.mem_append.mp hm with hm1 | hm2
    · exact hnl m (List.mem_append.mpr (Or.inl hm1)) hml
    · rcases List.mem_cons.mp hm2 with hm3 | hm4
      · exact hnl m (by rw [hm3]; exact List.mem_append.mpr (Or.inr (List.mem_cons_self _ _))) hml
      · cases hm4
  have hassoc : A ++ trig :: n4 :: B = (A ++ [trig]) ++ n4 :: B := by
    rw [List.append_assoc]
    rfl
  rw [handleOneOptionQuestion]
  simp only [hfind5, hchk, if_true, hr5, htfind5, hfilter5]
  simp only [List.getLast?_singleton]
  rw [hassoc, insertAfterNode_spec (mkOptionNode n50 detail) (A ++ [trig]) n4 B hXne]
  rw [List.append_assoc]
  rfl

/-- Claim C4 witness: Scenario D — with the trigger live and no siblings,
checking option `a` inserts `Q4` then `Q5` directly after the trigger, in
declaration order. -/
theorem c4_witness :
    (handleOptionToggle renderVia [w4Trigger, w4Q4, w4Q5] w4Detail 0
        { tree := [w4TriggerNode], pending := [] }) =
      { tree := [w4TriggerNode, mkOptionNode { questionId := "Q4" } w4Detail,
          mkOptionNode { questionId := "Q5" } w4Detail], pending := [] } :=
  c4_option_insert renderVia [w4Trigger, w4Q4, w4Q5] w4Detail 0 [] [] w4TriggerNode []
    w4Q4 w4Q5 { questionId := "Q4" } { questionId := "Q5" }
    (by decide) rfl rfl (by decide) (by decide) (by decide) (by decide)
    rfl rfl rfl (by decide)

/-! ### Option-specific questions: deferred removal -/

/-- Claim C1 counterexample: immediately after `handleOptionToggle` with
`checked = false`, the engine's own existence check (the selector guarding
duplicate inserts) still finds the node — the node is not logically absent;
only the physical detachment is scheduled. -/
theorem c1_counterexample :
    c1AfterUncheck.tree.find? (optionNodeSelector "Q2" "a") = some c1OptionNode := by
  decide

/-- Claim C1 amended: unchecking leaves the node physically and logically in
the tree (existence checks still find it) and schedules its removal for 300
time-units later; a rapid re-check within the window changes nothing (no
duplicate insert, but also no cancellation); the node disappears only when
the delay elapses, even though the option was re-checked. -/
theorem c1_amended :
    c1AfterUncheck.tree = [c1TriggerNode, c1OptionNode] ∧
      c1AfterUncheck.pending = [(c1OptionNode, 300)] ∧
      (elapse 299 c1AfterUncheck).tree = [c1TriggerNode, c1OptionNode] ∧
      (elapse 300 c1AfterUncheck).tree = [c1TriggerNode] ∧
      (handleOptionToggle renderVia [c1Checkbox, c1OptionQuestion] c1Recheck 150
          c1AfterUncheck) = c1AfterUncheck ∧
      (elapse 300 (handleOptionToggle renderVia [c1Checkbox, c1OptionQuestion] c1Recheck 150
          c1AfterUncheck)).tree = [c1TriggerNode] := by
  refine ⟨by decide, by decide, by decide, by decide, by decide, by decide⟩

/-! ### Debounce and control classification -/

theorem debounce_quiet (w : Nat) :
    ∀ (ts : List Nat) (t : Nat), gapsWithin w t ts = true →
      debounceFires w (t :: ts) = [ts.getLastD t + w] := by
  intro ts
  induction ts with
  | nil => intro t _; rfl
  | cons t2 rest ih =>
    intro t h
    rw [gapsWithin, Bool.and_eq_true] at h
    obtain ⟨h1, h2⟩ := h
    have hle : t2 ≤ t + w := of_decide_eq_true h1
    rw [List.getLastD_cons]
    rw [← ih t2 h2]
    simp only [debounceFires]
    rw [if_neg (by omega)]

/-- Claim C7: continuous controls (text/number/email/tel/url inputs and
textareas) get the trailing-edge `debounce(·, 300)` handler while discrete
controls fire immediately; and over any burst of events whose consecutive
gaps stay within the wait window, exactly one timer fires, `wait` after the
last event. -/
theorem c7_debounce (w t : Nat) (ts : List Nat) (h : gapsWithin w t ts = true) :
    debounceFires w (t :: ts) = [ts.getLastD t + w] ∧
      listenerFor (ControlKind.inputEl "text") = ListenerPolicy.debounced 300 ∧
      listenerFor (ControlKind.inputEl "number") = ListenerPolicy.debounced 300 ∧
      listenerFor (ControlKind.inputEl "email") = ListenerPolicy.debounced 300 ∧
      listenerFor (ControlKind.inputEl "url") = ListenerPolicy.debounced 300 ∧
      listenerFor ControlKind.textareaEl = ListenerPolicy.debounced 300 ∧
      listenerFor (ControlKind.inputEl "radio") = ListenerPolicy.immediate ∧
      listenerFor (ControlKind.inputEl "checkbox") = ListenerPolicy.immediate :=
  ⟨debounce_quiet w ts t h, by decide, by decide, by decide, by decide, by decide,
    by decide, by decide⟩

/-- Claim C7 witness: Scenario C — three continuous events 50 time-units
apart produce exactly one firing, 300 time-units after the third. -/
theorem c7_witness :
    gapsWithin 300 0 [50, 100] = true ∧ debounceFires 300 [0, 50, 100] = [100 + 300] :=
  ⟨by decide, ((c7_debounce 300 0 [50, 100] (by decide)).1).trans (by rfl)⟩

/-! ### Frame property of the reconciliation pass -/

theorem refreshStep1M_fst (renderM : Question → StoreComp (Option ViewNode))
    (evalM : Question → StoreComp Bool) (questions : List Question)
    (hr : ∀ q s, (renderM q s).1 = s) (he : ∀ q s, (evalM q s).1 = s)
    (acc : Store × List ViewNode) (q : Question) :
    (refreshStep1M renderM evalM questions acc q).1 = acc.1 := by
  cases hcs : q.conditions with
  | none => simp [refreshStep1M, hcs]
  | some cs =>
    have he' := he q acc.1
    cases hev : evalM q acc.1 with
    | mk s1 b =>
      rw [hev] at he'
      simp only at he'
      simp only [refreshStep1M, hcs, hev]
      have hr' := hr q s1
      by_cases hcond : (b && !(presentOf acc.2 q.id)) = true
      · rw [if_pos hcond]
        cases hrq : renderM q s1 with
        | mk s2 ov =>
          rw [hrq] at hr'
          simp only at hr'
          cases ov with
          | none => exact show s2 = acc.1 from hr'.trans he'
          | some nn => exact show s2 = acc.1 from hr'.trans he'
      · rw [if_neg hcond]
        by_cases hcond2 : (!b && presentOf acc.2 q.id) = true
        · rw [if_pos hcond2]
          exact show s1 = acc.1 from he'
        · rw [if_neg hcond2]
          exact show s1 = acc.1 from he'

theorem foldlM_fst (renderM : Question → StoreComp (Option ViewNode))
    (evalM : Question → StoreComp Bool) (questions : List Question)
    (hr : ∀ q s, (renderM q s).1 = s) (he : ∀ q s, (evalM q s).1 = s) :
    ∀ (qs : List Question) (acc : Store × List ViewNode),
      (qs.foldl (refreshStep1M renderM evalM questions) acc).1 = acc.1 := by
  intro qs
  induction qs with
  | nil => intro acc; rfl
  | cons q rest ih =>
    intro acc
    rw [List.foldl_cons, ih, refreshStep1M_fst renderM evalM questions hr he acc q]

/-- Claim C9: the reconciliation pass only reads the response store and never
writes it — whenever the condition oracle and the question factory are pure
reads, the store threaded through `refreshConditionalQuestions` comes out
unchanged, for every step, store and tree. -/
theorem c9_refresh_reads_only (renderM : Question → StoreComp (Option ViewNode))
    (evalM : Question → StoreComp Bool) (step : Step) (store : Store) (tree : List ViewNode)
    (hr : ∀ q s, (renderM q s).1 = s) (he : ∀ q s, (evalM q s).1 = s) :
    (refreshConditionalQuestionsM renderM evalM step store tree).1 = store := by
  rw [refreshConditionalQuestionsM]
  exact foldlM_fst renderM evalM step.questions hr he step.questions (store, tree)

/-- Claim C9 witness: a concrete pass over `wStep` leaves the store intact. -/
theorem c9_witness :
    (refreshConditionalQuestionsM (fun q s => (s, renderVia q))
        (fun q s => (s, shouldShowQuestion s q)) wStep [("Q1", "yes")] wTree).1 =
      [("Q1", "yes")] :=
  c9_refresh_reads_only (fun q s => (s, renderVia q)) (fun q s => (s, shouldShowQuestion s q))
    wStep [("Q1", "yes")] wTree (fun _ _ => rfl) (fun _ _ => rfl)

/-! ### renderQuestion null contract -/

/-- Claim C10: `renderQuestion` yields no node exactly when the question is
missing or its type is not one of the ten known question types; it performs no
tree mutation and raises nothing (it is a total function into `Option`). -/
theorem c10_renderQuestion_null (q : Option Question)
    (td : Option (List (String × String))) :
    renderQuestion q td = none ↔
      q = none ∨ ∃ qq, q = some qq ∧ qq.qtype ∉ knownQuestionTypes := by
  cases q with
  | none => simp [renderQuestion]
  | some qq =>
    by_cases h : qq.qtype ∈ knownQuestionTypes
    · simp [renderQuestion, renderQuestionNode, h]
    · simp [renderQuestion, renderQuestionNode, h]

end SurveyApp
